import Mathlib

/-!
Verification of the DyeLight highlighted-textarea component.

The definitions below are a shallow embedding of the TypeScript source:
strings are modelled as `List Char`, JavaScript numbers used as text
offsets as `Int` (clamped into `Nat` exactly where the source clamps),
React state setters as immediate updates of an explicit state record, and
the change listener as a list of emitted notification payloads.
-/

namespace Dyelight

/-- JavaScript `String.prototype.slice(a, b)` on a list of characters, for
non-negative indices: characters at positions `a ≤ p < b`. -/
def jsSlice (l : List Char) (a b : Nat) : List Char := (l.take b).drop a

/-- Embedding of `getLinePositions` (textUtils.ts): `text.split('\n')`
paired with the running absolute start offset of each line.  The source
accumulates `position += line.length + 1` for every line but the last; the
final increment is never pushed, so always adding `+ 1` yields the same
`lineStarts` list. -/
def lineStartsAux : Nat → List (List Char) → List Nat
  | _, [] => []
  | pos, l :: rest => pos :: lineStartsAux (pos + l.length + 1) rest

/-- The lines of a text, split on the newline character as in
`text.split('\n')` (an empty text yields one empty line; a trailing
newline yields a trailing empty line). -/
def splitLines (t : List Char) : List (List Char) := t.splitOn '\n'

/-- Embedding of `getLinePositions` (textUtils.ts). -/
def getLinePositions (t : List Char) : List (List Char) × List Nat :=
  (splitLines t, lineStartsAux 0 (splitLines t))

/-- Downward scan of `absoluteToLinePos` (textUtils.ts): the source walks
`i` from the last index to `0` and returns at the first `i` with
`absolutePos >= lineStarts[i]`; equivalently, the match found by the
deepest recursive call wins. -/
def absoluteToLinePosGo (pos : Int) : List Nat → Nat → Option (Nat × Nat)
  | [], _ => none
  | s :: rest, i =>
    match absoluteToLinePosGo pos rest (i + 1) with
    | some r => some r
    | none => if (s : Int) ≤ pos then some (i, (pos - s).toNat) else none

/-- Embedding of `absoluteToLinePos` (textUtils.ts): the greatest line
index whose start is at most `pos`, with the residual local offset; the
fallback when no line start is at most `pos` is line `0`, offset `0`. -/
def absoluteToLinePos (pos : Int) (lineStarts : List Nat) : Nat × Nat :=
  (absoluteToLinePosGo pos lineStarts 0).getD (0, 0)

/-- A `CharacterRange` (types.ts): a half-open absolute-offset interval
with an optional CSS class name; inline styles are an opaque styling
payload and are not modelled. `stop` embeds the source field `end`, which
is a reserved word in Lean. -/
structure CharacterRange where
  start : Int
  stop : Int
  className : Option String
deriving DecidableEq, Repr

/-- A per-line clipped range as pushed into `highlightsByLine` by
`computeHighlightedContent` (useHighlightedContent.ts): the originating
absolute start, the clipped local bounds, and the range's class name. -/
structure LineRange where
  absoluteStart : Int
  start : Int
  stop : Int
  className : Option String
deriving DecidableEq, Repr

/-- The `highlightsByLine[i]` list built by `computeHighlightedContent`:
iterating the highlights in declaration order, a highlight contributes its
clipped sub-range to every line between the resolved line of `start` and
the resolved line of `end - 1`, provided the clipped sub-range is
non-empty. -/
def rangesForLine (hs : List CharacterRange) (lineStarts : List Nat)
    (lines : List (List Char)) (i : Nat) : List LineRange :=
  hs.filterMap fun h =>
    let startPos := absoluteToLinePos h.start lineStarts
    let endPos := absoluteToLinePos (h.stop - 1) lineStarts
    if startPos.1 ≤ i ∧ i ≤ endPos.1 then
      let lineStart : Int := lineStarts.getD i 0
      let lineLen : Nat := (lines.getD i []).length
      let rangeStart : Int := max (h.start - lineStart) 0
      let rangeEnd : Int := min (h.stop - lineStart) lineLen
      if rangeStart < rangeEnd then
        some ⟨h.start, rangeStart, rangeEnd, h.className⟩
      else none
    else none

/-- The kind of a display segment: plain text, or a styled span carrying
the originating range's absolute start (the source's `data-range-start`
attribute) and class name. -/
inductive SegKind where
  | plain : SegKind
  | styled : Int → Option String → SegKind
deriving DecidableEq, Repr

/-- A display segment for one line: local half-open bounds `[a, b)` and
the slice of the line's text they carry. -/
structure Seg where
  a : Nat
  b : Nat
  text : List Char
  kind : SegKind
deriving DecidableEq, Repr

/-- Insert a range into a list already sorted by ascending `start`,
after every element whose `start` is not greater: together with
`sortByStart` this computes the unique stable ascending sort by `start`
performed by `ranges.toSorted((a, b) => a.start - b.start)` in
`renderHighlightedLine` (DyeLight.tsx). -/
def insertByStart (r : LineRange) : List LineRange → List LineRange
  | [] => [r]
  | x :: xs => if r.start < x.start then r :: x :: xs else x :: insertByStart r xs

/-- Stable ascending sort by `start` (see `insertByStart`). -/
def sortByStart (l : List LineRange) : List LineRange :=
  l.foldl (fun acc r => insertByStart r acc) []

/-- One step of the sweep in `renderHighlightedLine` (DyeLight.tsx):
clamp the range to the line, skip it when fully subsumed by the cursor
`lastIndex`, otherwise emit the plain gap before it (when non-empty) and
the styled run (when non-empty) and advance the cursor. -/
def segStep (line : List Char) (st : Nat × List Seg) (r : LineRange) : Nat × List Seg :=
  let len := line.length
  let lastIndex := st.1
  let clampedStart : Nat := (max 0 (min r.start (len : Int))).toNat
  let clampedEnd : Nat := (max (clampedStart : Int) (min r.stop (len : Int))).toNat
  if clampedEnd ≤ lastIndex then st
  else
    let effectiveStart := max clampedStart lastIndex
    let textBefore := jsSlice line lastIndex effectiveStart
    let acc := if textBefore.isEmpty then st.2
      else st.2 ++ [⟨lastIndex, effectiveStart, textBefore, SegKind.plain⟩]
    let acc := if effectiveStart < clampedEnd then
        acc ++ [⟨effectiveStart, clampedEnd, jsSlice line effectiveStart clampedEnd,
          SegKind.styled r.absoluteStart r.className⟩]
      else acc
    (max lastIndex clampedEnd, acc)

/-- The display segments emitted by `renderHighlightedLine` (DyeLight.tsx)
for one line: with no ranges the whole line is a single plain node (the
non-breaking placeholder rendered for an empty line carries no text and is
not a segment); otherwise the ranges are stably sorted by local start and
swept with `segStep`, and the remainder of the line is emitted as a
trailing plain segment. -/
def renderHighlightedLine (line : List Char) (ranges : List LineRange) : List Seg :=
  if ranges.isEmpty then
    if line.isEmpty then [] else [⟨0, line.length, line, SegKind.plain⟩]
  else
    let st := (sortByStart ranges).foldl (segStep line) (0, [])
    if st.1 < line.length then
      st.2 ++ [⟨st.1, line.length, line.drop st.1, SegKind.plain⟩]
    else st.2

/-- The segments of line `i` produced by `computeHighlightedContent`
(useHighlightedContent.ts) composed with `renderHighlightedLine`
(DyeLight.tsx). -/
def computeLineSegments (t : List Char) (hs : List CharacterRange) (i : Nat) : List Seg :=
  let lp := getLinePositions t
  renderHighlightedLine (lp.1.getD i []) (rangesForLine hs lp.2 lp.1 i)

/-- Concatenation of the texts of a list of segments, in order. -/
def segText (segs : List Seg) : List Char :=
  segs.foldr (fun s acc => s.text ++ acc) []

/-- The segments `segs` tile the local interval `[n, m)` exactly: each
segment starts where its predecessor ended (the first at `n`), each is
non-empty as an interval, and the last ends at `m`. -/
inductive Covers : Nat → List Seg → Nat → Prop where
  | nil (n : Nat) : Covers n [] n
  | cons (n m : Nat) (s : Seg) (rest : List Seg) (ha : s.a = n) (hb : n < s.b)
      (h : Covers s.b rest m) : Covers n (s :: rest) m

/-- Whether a character is an ASCII letter. -/
def isAsciiLetter (c : Char) : Bool :=
  (97 ≤ c.toNat && c.toNat ≤ 122) || (65 ≤ c.toNat && c.toNat ≤ 90)

/-- Whether a character is a JavaScript regular-expression line terminator
(`.` does not match these without the `s` flag). -/
def isLineTerminator (c : Char) : Bool :=
  c = '\n' || c = '\r' || c = '\u2028' || c = '\u2029'

/-- Case-insensitive prefix test, as performed by a `/^.../ i` regex. -/
def startsWithCI (p : List Char) (v : List Char) : Bool :=
  p.isPrefixOf (v.map Char.toLower)

/-- The literal alternatives of the first regex in `isColorValue`
(textUtils.ts), lowercased. -/
def colorKeywords : List (List Char) :=
  ["#".toList, "rgb".toList, "hsl".toList, "transparent".toList,
   "currentcolor".toList, "inherit".toList, "initial".toList, "unset".toList]

/-- The `var\(--.*?\)` alternative of the first regex in `isColorValue`:
the value starts with `var(--` (case-insensitively) and a closing
parenthesis occurs in the remainder before any line terminator. -/
def isVarColor (v : List Char) : Bool :=
  startsWithCI "var(--".toList v &&
    ((v.drop 6).takeWhile (fun c => !isLineTerminator c)).contains ')'

/-- Embedding of `isColorValue` (textUtils.ts): the value matches one of
the color-prefix alternatives of the first regex, or it is a non-empty
run of ASCII letters (the second regex, `/^[a-z]+$/ i`). -/
def isColorValue (v : List Char) : Bool :=
  (colorKeywords.any fun p => startsWithCI p v) || isVarColor v ||
    (!v.isEmpty && v.all isAsciiLetter)

/-- The styling decision `createLineElement` (DyeLight.tsx) makes for a
line container: which CSS class and which background color it receives. -/
structure LineElem where
  className : Option (List Char)
  backgroundColor : Option (List Char)
deriving DecidableEq, Repr

/-- Embedding of `createLineElement` (DyeLight.tsx): no line highlight (or
an empty one, which is falsy in `if (!lineHighlight)`) yields a bare
container; a highlight recognized by `isColorValue` is applied as a
background color, any other highlight as a class name. -/
def createLineElement (lineHighlight : Option (List Char)) : LineElem :=
  match lineHighlight with
  | none => ⟨none, none⟩
  | some tag =>
    if tag.isEmpty then ⟨none, none⟩
    else if isColorValue tag then ⟨none, some tag⟩
    else ⟨some tag, none⟩

/-- The value-owning state of `useTextareaValue` (the hook in the value
reconciler): the uncontrolled owned value (`internalValue`), the rendering
mirror of the controlled value (`renderValue`), and the native widget's
raw DOM value, `none` while the widget is detached.  React state setters
are modelled as immediate updates of this record. -/
structure ValueState where
  internalValue : String
  renderValue : String
  dom : Option String
deriving DecidableEq, Repr

/-- The value reported by `getValue` and rendered to the overlay:
`renderValue` in controlled mode, `internalValue` otherwise. -/
def currentValue (st : ValueState) (isControlled : Bool) : String :=
  if isControlled then st.renderValue else st.internalValue

/-- Embedding of `handleChangeValue` (useTextareaValue hook): a user edit
reporting `newValue`; the result pairs the new state with the list of
change-listener notifications emitted. -/
def handleChangeValue (st : ValueState) (isControlled : Bool) (newValue : String) :
    ValueState × List String :=
  if newValue = currentValue st isControlled then (st, [])
  else
    let st := if isControlled then { st with renderValue := newValue }
      else { st with internalValue := newValue }
    (st, [newValue])

/-- Embedding of `applySetValue` (useTextareaValue hook): a programmatic
`setValue`; a detached widget returns immediately, otherwise the raw DOM
value is written, then the owned value or rendering mirror is updated,
then the change listener is notified — in that order. -/
def applySetValue (st : ValueState) (isControlled : Bool) (newValue : String) :
    ValueState × List String :=
  match st.dom with
  | none => (st, [])
  | some _ =>
    let st := { st with dom := some newValue }
    let st := if isControlled then { st with renderValue := newValue }
      else { st with internalValue := newValue }
    (st, [newValue])

/-- Embedding of `syncValueWithDOM` (useTextareaValue hook): adopt the raw
DOM value into uncontrolled state when it diverges; a detached widget or
controlled mode returns immediately. -/
def syncValueWithDOM (st : ValueState) (isControlled : Bool) :
    ValueState × List String :=
  match st.dom with
  | none => (st, [])
  | some domValue =>
    if isControlled then (st, [])
    else if domValue = currentValue st isControlled then (st, [])
    else ({ st with internalValue := domValue }, [domValue])

/-- Embedding of the controlled-prop effect of `useTextareaValue`: when
the owner-supplied `value` prop (defaulted to the empty string) differs
from the rendering mirror, the mirror is overwritten with it. -/
def applyControlledProp (st : ValueState) (propValue : Option String) : ValueState :=
  let nextValue := propValue.getD ""
  if nextValue = st.renderValue then st else { st with renderValue := nextValue }

/-- Text direction of the widget. -/
inductive Dir where
  | ltr : Dir
  | rtl : Dir
deriving DecidableEq, Repr

/-- The computed style read from the native widget by
`syncHighlightStyles` (useHighlightSync hook).  The numeric fields model
the `parseFloat(...) || 0` parses of the source; `textFlow` stands for the
tuple of mirrored textual properties copied verbatim (font, line height,
spacing, indent, alignment, writing mode, bidi, direction keyword,
white-space, word-break, overflow-wrap, tab size). -/
structure ComputedStyle where
  direction : Dir
  borderLeftWidth : Rat
  borderRightWidth : Rat
  paddingLeft : Rat
  paddingRight : Rat
  textFlow : String
deriving DecidableEq, Repr

/-- The box metrics read from the native widget: `offsetWidth` (outer
width: borders, padding and scrollbar included) and `clientWidth` (inner
content width: padding included, borders and scrollbar excluded). -/
structure BoxMetrics where
  offsetWidth : Rat
  clientWidth : Rat
deriving DecidableEq, Repr

/-- The overlay style fields written by `syncHighlightStyles`. -/
structure OverlayStyle where
  textFlow : String
  borderLeftWidth : Rat
  borderRightWidth : Rat
  borderColorTransparent : Bool
  paddingLeft : Rat
  paddingRight : Rat
deriving DecidableEq, Repr

/-- Embedding of the attached-case body of `syncHighlightStyles`
(useHighlightSync hook): mirror the textual flow properties and padding,
mirror border widths with the border color forced transparent, compute
`scrollbarWidth = offsetWidth - clientWidth - borderLeft - borderRight`,
and when it is positive add it to the trailing-edge padding — the left
edge for right-to-left text, the right edge otherwise. -/
def syncHighlightStylesBody (cs : ComputedStyle) (m : BoxMetrics)
    (ov : OverlayStyle) : OverlayStyle :=
  let ov := { ov with
    textFlow := cs.textFlow
    paddingLeft := cs.paddingLeft
    paddingRight := cs.paddingRight
    borderLeftWidth := cs.borderLeftWidth
    borderRightWidth := cs.borderRightWidth
    borderColorTransparent := true }
  let borderLeft := cs.borderLeftWidth
  let borderRight := cs.borderRightWidth
  let scrollbarWidth := m.offsetWidth - m.clientWidth - borderLeft - borderRight
  if 0 < scrollbarWidth then
    match cs.direction with
    | Dir.rtl => { ov with paddingLeft := cs.paddingLeft + scrollbarWidth }
    | Dir.ltr => { ov with paddingRight := cs.paddingRight + scrollbarWidth }
  else ov

/-- Embedding of `syncHighlightStyles` including its missing-surface
guard: either reference being absent leaves the overlay untouched. -/
def syncHighlightStyles (ta : Option (ComputedStyle × BoxMetrics))
    (ov : Option OverlayStyle) : Option OverlayStyle :=
  match ta, ov with
  | some t, some o => some (syncHighlightStylesBody t.1 t.2 o)
  | _, _ => ov

/-- Scroll offsets of an element on both axes. -/
structure ScrollPos where
  scrollTop : Rat
  scrollLeft : Rat
deriving DecidableEq, Repr

/-- Embedding of `syncScrollPositions` (useHighlightSync hook): copy the
widget's scroll offsets onto the overlay verbatim; either reference being
absent leaves the overlay untouched. -/
def syncScrollPositions (ta : Option ScrollPos) (ov : Option ScrollPos) :
    Option ScrollPos :=
  match ta, ov with
  | some t, some _ => some t
  | _, _ => ov

/-- The scheduling state of `useHighlightSync`: the next frame id the
environment will hand out, the ids of registered (not yet fired, not
cancelled) animation-frame callbacks of this instance, the ids that have
fired, and the hook's `syncFrameId` ref. -/
structure Sched where
  nextId : Nat
  pending : List Nat
  executed : List Nat
  syncFrameId : Option Nat
deriving DecidableEq, Repr

/-- The environment's `requestAnimationFrame`: registers a callback under
a fresh id and returns the id. -/
def requestFrame (s : Sched) : Nat × Sched :=
  (s.nextId, { s with nextId := s.nextId + 1, pending := s.pending ++ [s.nextId] })

/-- The environment's `cancelAnimationFrame`: deregisters the callback
with the given id, so it will never fire. -/
def cancelFrame (i : Nat) (s : Sched) : Sched :=
  { s with pending := s.pending.erase i }

/-- Embedding of `syncLayout` (useHighlightSync hook): cancel any
outstanding scheduled pass, then schedule a single new one and remember
its token. -/
def syncLayout (s : Sched) : Sched :=
  let s1 := match s.syncFrameId with
    | some i => cancelFrame i s
    | none => s
  let r := requestFrame s1
  { r.2 with syncFrameId := some r.1 }

/-- Embedding of `cancelPendingSync` (useHighlightSync hook): discard the
pending pass, if any, without executing it. -/
def cancelPendingSync (s : Sched) : Sched :=
  match s.syncFrameId with
  | none => s
  | some i => { cancelFrame i s with syncFrameId := none }

/-- The environment firing registered callback `i`: the callback runs the
style pass then the scroll pass and clears `syncFrameId`; an id that is
not registered never fires. -/
def fireFrame (i : Nat) (s : Sched) : Sched :=
  if i ∈ s.pending then
    { s with
      pending := s.pending.erase i
      executed := s.executed ++ [i]
      syncFrameId := none }
  else s

/-- One event-loop step of the scheduler: a scheduling trigger, a
cancellation, or the environment firing a registered frame. -/
inductive SchedStep : Sched → Sched → Prop where
  | sync (s : Sched) : SchedStep s (syncLayout s)
  | cancel (s : Sched) : SchedStep s (cancelPendingSync s)
  | fire (i : Nat) (s : Sched) : SchedStep s (fireFrame i s)

/-- The scheduler's invariant: the registered callbacks are exactly the
remembered token (so at most one pending pass exists), all known ids are
below the environment's fresh-id counter, and an id that has fired is no
longer registered. -/
def SchedInv (s : Sched) : Prop :=
  s.pending = s.syncFrameId.toList ∧ (∀ i ∈ s.pending, i < s.nextId) ∧
    (∀ i ∈ s.executed, i < s.nextId) ∧ ∀ i ∈ s.executed, i ∉ s.pending

/-- Token `i` has been superseded or cancelled: it is no longer
registered, has never fired, and is stale (below the fresh-id counter). -/
def Superseded (i : Nat) (s : Sched) : Prop :=
  i ∉ s.pending ∧ i ∉ s.executed ∧ i < s.nextId

theorem segText_nil : segText [] = [] := rfl

theorem segText_cons (s : Seg) (xs : List Seg) :
    segText (s :: xs) = s.text ++ segText xs := rfl

theorem segText_append (xs ys : List Seg) :
    segText (xs ++ ys) = segText xs ++ segText ys := by
  induction xs with
  | nil => simp [segText_nil]
  | cons s xs ih => simp [segText_cons, ih]

theorem jsSlice_length (l : List Char) (a b : Nat) :
    (jsSlice l a b).length = min b l.length - a := by
  simp [jsSlice]

theorem take_append_jsSlice (l : List Char) {a b : Nat} (h : a ≤ b) :
    l.take a ++ jsSlice l a b = l.take b := by
  have h1 : (l.take b).take a = l.take a := by
    rw [List.take_take]
    congr 1
    omega
  calc l.take a ++ (l.take b).drop a
      = (l.take b).take a ++ (l.take b).drop a := by rw [h1]
    _ = l.take b := List.take_append_drop a (l.take b)

theorem jsSlice_eq_nil {l : List Char} {a b : Nat} (h : b ≤ a) :
    jsSlice l a b = [] := by
  have : (jsSlice l a b).length = 0 := by
    rw [jsSlice_length]
    omega
  exact List.length_eq_zero.mp this

theorem jsSlice_isEmpty_iff {l : List Char} {a b : Nat} (hb : b ≤ l.length) :
    (jsSlice l a b).isEmpty = true ↔ b ≤ a := by
  rw [List.isEmpty_iff, ← List.length_eq_zero, jsSlice_length]
  omega

theorem jsSlice_to_length (l : List Char) (a : Nat) :
    jsSlice l a l.length = l.drop a := by
  simp [jsSlice]

theorem Covers.append {n m k : Nat} {xs ys : List Seg} (h1 : Covers n xs m) :
    Covers m ys k → Covers n (xs ++ ys) k := by
  induction h1 with
  | nil => intro h2; simpa using h2
  | cons n' m' s rest ha hb h ih =>
    intro h2
    exact Covers.cons _ _ _ _ ha hb (ih h2)

theorem Covers.le {n m : Nat} {xs : List Seg} (h : Covers n xs m) : n ≤ m := by
  induction h with
  | nil => exact Nat.le_refl _
  | cons n' m' s rest ha hb h ih => omega

theorem Covers.mem_bounds {n m : Nat} {xs : List Seg} (h : Covers n xs m) :
    ∀ s ∈ xs, n ≤ s.a ∧ s.a < s.b ∧ s.b ≤ m := by
  induction h with
  | nil => intro s hs; simp at hs
  | cons n' m' s rest ha hb h ih =>
    intro t ht
    rcases List.mem_cons.mp ht with rfl | ht
    · exact ⟨Nat.le_of_eq ha.symm, by omega, h.le⟩
    · have := ih t ht
      omega

theorem Covers.pairwise {n m : Nat} {xs : List Seg} (h : Covers n xs m) :
    xs.Pairwise fun s1 s2 => s1.b ≤ s2.a := by
  induction h with
  | nil => exact List.Pairwise.nil
  | cons n' m' s rest ha hb h ih =>
    refine List.Pairwise.cons ?_ ih
    intro t ht
    have := h.mem_bounds t ht
    omega

theorem segStep_inv (line : List Char) (r : LineRange) (last : Nat) (acc : List Seg)
    (h1 : last ≤ line.length) (h2 : Covers 0 acc last)
    (h3 : segText acc = line.take last) :
    (segStep line (last, acc) r).1 ≤ line.length ∧
      Covers 0 (segStep line (last, acc) r).2 (segStep line (last, acc) r).1 ∧
      segText (segStep line (last, acc) r).2 =
        line.take (segStep line (last, acc) r).1 := by
  dsimp only [segStep]
  set len := line.length with hlen
  set cS : Nat := (max 0 (min r.start (len : Int))).toNat with hcS
  set cE : Nat := (max (cS : Int) (min r.stop (len : Int))).toNat with hcE
  have hcSle : cS ≤ len := by omega
  have hcScE : cS ≤ cE := by omega
  have hcEle : cE ≤ len := by omega
  by_cases hskip : cE ≤ last
  · simp only [if_pos hskip]
    exact ⟨h1, h2, h3⟩
  · simp only [if_neg hskip]
    set effS : Nat := max cS last with heffS
    have hlastEff : last ≤ effS := Nat.le_max_right _ _
    have hEffLen : effS ≤ len := Nat.max_le.mpr ⟨hcSle, h1⟩
    have hEffcE : effS ≤ cE := Nat.max_le.mpr ⟨hcScE, by omega⟩
    have hmax : max last cE = cE := Nat.max_eq_right (by omega)
    have hkey : ∀ acc2 : List Seg,
        acc2 = (if (jsSlice line last effS).isEmpty then acc
          else acc ++ [⟨last, effS, jsSlice line last effS, SegKind.plain⟩]) →
        segText ((if effS < cE then
            acc2 ++ [⟨effS, cE, jsSlice line effS cE,
              SegKind.styled r.absoluteStart r.className⟩] else acc2)) =
          line.take last ++ jsSlice line last effS ++ jsSlice line effS cE ∧
        Covers 0 ((if effS < cE then
            acc2 ++ [⟨effS, cE, jsSlice line effS cE,
              SegKind.styled r.absoluteStart r.className⟩] else acc2)) cE := by
      intro acc2 hacc2
      have hmid : segText acc2 = line.take last ++ jsSlice line last effS ∧
          Covers 0 acc2 effS := by
        by_cases hemp : (jsSlice line last effS).isEmpty
        · have heq : effS = last := by
            have := (jsSlice_isEmpty_iff (l := line) (a := last) hEffLen).mp hemp
            omega
          rw [hacc2, if_pos hemp]
          refine ⟨?_, heq ▸ h2⟩
          rw [h3, jsSlice_eq_nil (Nat.le_of_eq heq), List.append_nil]
        · have hlt : last < effS := by
            rcases Nat.lt_or_ge last effS with h | h
            · exact h
            · exact absurd ((jsSlice_isEmpty_iff hEffLen).mpr h) hemp
          rw [hacc2, if_neg hemp]
          constructor
          · rw [segText_append, h3, segText_cons, segText_nil, List.append_nil]
          · exact h2.append (Covers.cons _ _ _ _ rfl hlt (Covers.nil _))
      by_cases hsty : effS < cE
      · rw [if_pos hsty]
        constructor
        · rw [segText_append, hmid.1, segText_cons, segText_nil, List.append_nil,
            List.append_assoc]
        · exact hmid.2.append (Covers.cons _ _ _ _ rfl hsty (Covers.nil _))
      · have heq : effS = cE := by omega
        rw [if_neg hsty]
        constructor
        · rw [hmid.1, jsSlice_eq_nil (Nat.le_of_eq heq.symm), List.append_nil]
        · exact heq ▸ hmid.2
    obtain ⟨htext, hcov⟩ := hkey _ rfl
    refine ⟨by omega, ?_, ?_⟩
    · simpa [hmax] using hcov
    · rw [htext]
      simp only [hmax]
      rw [take_append_jsSlice line hlastEff, take_append_jsSlice line hEffcE]

theorem segSweep_inv (line : List Char) (rs : List LineRange) :
    ∀ (last : Nat) (acc : List Seg), last ≤ line.length → Covers 0 acc last →
      segText acc = line.take last →
      (rs.foldl (segStep line) (last, acc)).1 ≤ line.length ∧
        Covers 0 (rs.foldl (segStep line) (last, acc)).2
          (rs.foldl (segStep line) (last, acc)).1 ∧
        segText (rs.foldl (segStep line) (last, acc)).2 =
          line.take (rs.foldl (segStep line) (last, acc)).1 := by
  induction rs with
  | nil =>
    intro last acc h1 h2 h3
    exact ⟨h1, h2, h3⟩
  | cons r rs ih =>
    intro last acc h1 h2 h3
    have h := segStep_inv line r last acc h1 h2 h3
    have hres := ih (segStep line (last, acc) r).1 (segStep line (last, acc) r).2
      h.1 h.2.1 h.2.2
    simpa [List.foldl_cons] using hres

theorem renderHighlightedLine_inv (line : List Char) (ranges : List LineRange) :
    Covers 0 (renderHighlightedLine line ranges) line.length ∧
      segText (renderHighlightedLine line ranges) = line := by
  unfold renderHighlightedLine
  by_cases hr : ranges.isEmpty
  · simp only [if_pos hr]
    by_cases hl : line.isEmpty
    · have heq : line = [] := List.isEmpty_iff.mp hl
      subst heq
      exact ⟨Covers.nil 0, rfl⟩
    · simp only [if_neg hl]
      have hpos : 0 < line.length := by
        cases line with
        | nil => simp at hl
        | cons c cs => simp
      refine ⟨Covers.cons _ _ _ _ rfl hpos (Covers.nil _), ?_⟩
      rw [segText_cons, segText_nil, List.append_nil]
  · simp only [if_neg hr]
    obtain ⟨hA, hB, hC⟩ := segSweep_inv line (sortByStart ranges) 0 []
      (Nat.zero_le _) (Covers.nil 0) (by simp [segText_nil])
    set st := (sortByStart ranges).foldl (segStep line) (0, []) with hst
    by_cases hf : st.1 < line.length
    · simp only [if_pos hf]
      constructor
      · exact hB.append (Covers.cons _ _ _ _ rfl hf (Covers.nil _))
      · rw [segText_append, hC, segText_cons, segText_nil, List.append_nil,
          List.take_append_drop]
    · simp only [if_neg hf]
      have heq : st.1 = line.length := Nat.le_antisymm hA (Nat.le_of_not_lt hf)
      exact ⟨heq ▸ hB, by rw [hC, heq, List.take_length]⟩

/-- C1: for every text value, every list of HighlightRanges, and every
line of that text, the display segments emitted for that line are
contiguous and non-overlapping — they tile the interval from `0` to the
line's length and are pairwise disjoint — and their in-order concatenation
reproduces that line's text exactly, no character duplicated or dropped,
regardless of how many ranges overlap. -/
theorem segments_reconstruct_line (t : List Char) (hs : List CharacterRange) (i : Nat) :
    Covers 0 (computeLineSegments t hs i) ((getLinePositions t).1.getD i []).length ∧
      ((computeLineSegments t hs i).Pairwise fun s1 s2 => s1.b ≤ s2.a) ∧
      segText (computeLineSegments t hs i) = (getLinePositions t).1.getD i [] := by
  have h := renderHighlightedLine_inv ((getLinePositions t).1.getD i [])
    (rangesForLine hs (getLinePositions t).2 (getLinePositions t).1 i)
  exact ⟨h.1, h.1.pairwise, h.2⟩

/-- C9: for the ranges `[0,10)` and `[7,10)` over the single-line text
`"Questioner"`, segmentation emits exactly one styled segment, covering
local positions `[0,10)` and carrying the first range's tag; the second
range contributes no segment. -/
theorem earliest_start_wins_questioner :
    computeLineSegments "Questioner".toList
      [⟨0, 10, some "first"⟩, ⟨7, 10, some "second"⟩] 0 =
      [⟨0, 10, "Questioner".toList, SegKind.styled 0 (some "first")⟩] := by
  decide

/-- C2: for every string `X`, a programmatic `setValue X` on an attached
widget writes the native widget's raw value, updates the owned value
(uncontrolled) or the rendering mirror (controlled), and notifies the
change listener with `X`, so that `getValue` immediately afterwards
returns `X` in both modes. -/
theorem setValue_getValue_roundtrip (st : ValueState) (isControlled : Bool)
    (X : String) (h : st.dom.isSome) :
    (applySetValue st isControlled X).1.dom = some X ∧
      currentValue (applySetValue st isControlled X).1 isControlled = X ∧
      (applySetValue st isControlled X).2 = [X] ∧
      (isControlled = true → (applySetValue st isControlled X).1.renderValue = X) ∧
      (isControlled = false → (applySetValue st isControlled X).1.internalValue = X) := by
  obtain ⟨d, hd⟩ := Option.isSome_iff_exists.mp h
  cases isControlled <;> simp [applySetValue, hd, currentValue]

/-- Witness for `setValue_getValue_roundtrip` at a concrete attached state. -/
theorem setValue_getValue_roundtrip_witness :
    (applySetValue ⟨"a", "b", some "c"⟩ true "x").1.dom = some "x" ∧
      currentValue (applySetValue ⟨"a", "b", some "c"⟩ true "x").1 true = "x" :=
  ⟨(setValue_getValue_roundtrip ⟨"a", "b", some "c"⟩ true "x" rfl).1,
   (setValue_getValue_roundtrip ⟨"a", "b", some "c"⟩ true "x" rfl).2.1⟩

/-- C3 as stated fails on the code: in controlled mode, a user edit
reporting raw value `"B"` while the owner-supplied value is `"A"` notifies
the change listener with `"B"` but also immediately adopts `"B"` into the
rendering mirror, so the value observable via `getValue` becomes `"B"`
rather than staying the owner-supplied `"A"`. -/
theorem controlled_edit_adopts_raw_value :
    (handleChangeValue ⟨"A", "A", some "B"⟩ true "B").2 = ["B"] ∧
      currentValue (handleChangeValue ⟨"A", "A", some "B"⟩ true "B").1 true = "B" ∧
      ¬ currentValue (handleChangeValue ⟨"A", "A", some "B"⟩ true "B").1 true = "A" := by
  decide

/-- C3 amended: in controlled mode, a user edit whose raw value differs
from the rendered value notifies the change listener with the raw value
and immediately adopts it into the rendering mirror (so `getValue`
reflects the raw value); the uncontrolled owned value is untouched, and
whenever the owner next supplies a value prop the mirror is overwritten
with it, making the owner's value the source of truth again. -/
theorem controlled_edit_notifies_and_mirrors (st : ValueState) (v : String)
    (h : v ≠ currentValue st true) :
    (handleChangeValue st true v).2 = [v] ∧
      currentValue (handleChangeValue st true v).1 true = v ∧
      (handleChangeValue st true v).1.internalValue = st.internalValue ∧
      ∀ p : Option String,
        (applyControlledProp (handleChangeValue st true v).1 p).renderValue =
          p.getD "" := by
  have h2 : ¬ v = st.renderValue := by simpa [currentValue] using h
  refine ⟨?_, ?_, ?_, ?_⟩
  · simp [handleChangeValue, currentValue, h2]
  · simp [handleChangeValue, currentValue, h2]
  · simp [handleChangeValue, currentValue, h2]
  · intro p
    unfold applyControlledProp
    by_cases hp : p.getD "" = (handleChangeValue st true v).1.renderValue
    · simp [hp]
    · simp [hp]

/-- Witness for `controlled_edit_notifies_and_mirrors` at a concrete
state. -/
theorem controlled_edit_notifies_and_mirrors_witness :
    (handleChangeValue ⟨"A", "A", some "B"⟩ true "B").2 = ["B"] ∧
      currentValue (handleChangeValue ⟨"A", "A", some "B"⟩ true "B").1 true = "B" :=
  ⟨(controlled_edit_notifies_and_mirrors ⟨"A", "A", some "B"⟩ "B" (by decide)).1,
   (controlled_edit_notifies_and_mirrors ⟨"A", "A", some "B"⟩ "B" (by decide)).2.1⟩

/-- C5: the change listener receives the new raw value on every user edit
— an edit by definition reports a value different from the currently
rendered one, which the widget displays between renders — and on every
programmatic `setValue` on an attached widget. -/
theorem onChange_fires_on_edit_and_setValue (st : ValueState) (b : Bool)
    (v X : String) (hv : v ≠ currentValue st b) (hdom : st.dom.isSome) :
    (handleChangeValue st b v).2 = [v] ∧ (applySetValue st b X).2 = [X] := by
  constructor
  · simp [handleChangeValue, hv]
  · obtain ⟨d, hd⟩ := Option.isSome_iff_exists.mp hdom
    cases b <;> simp [applySetValue, hd]

/-- Witness for `onChange_fires_on_edit_and_setValue` at a concrete
state. -/
theorem onChange_fires_on_edit_and_setValue_witness :
    (handleChangeValue ⟨"a", "a", some "a"⟩ false "b").2 = ["b"] ∧
      (applySetValue ⟨"a", "a", some "a"⟩ false "c").2 = ["c"] :=
  onChange_fires_on_edit_and_setValue ⟨"a", "a", some "a"⟩ false "b" "c"
    (by decide) rfl

/-- C8: with the native widget or overlay reference absent, programmatic
`setValue`, DOM-value synchronization, style mirroring and scroll
mirroring are silent no-ops: every operation is total (nothing throws),
all state it owns is returned unchanged, and the change listener is not
invoked. -/
theorem detached_operations_noop (iv rv : String) (b : Bool) (v : String)
    (ta : Option (ComputedStyle × BoxMetrics)) (ovs : Option OverlayStyle)
    (tas : Option ScrollPos) (ovp : Option ScrollPos) :
    applySetValue ⟨iv, rv, none⟩ b v = (⟨iv, rv, none⟩, []) ∧
      syncValueWithDOM ⟨iv, rv, none⟩ b = (⟨iv, rv, none⟩, []) ∧
      syncHighlightStyles none ovs = ovs ∧
      syncHighlightStyles ta none = none ∧
      syncScrollPositions none ovp = ovp ∧
      syncScrollPositions tas none = none := by
  refine ⟨rfl, rfl, ?_, ?_, ?_, ?_⟩
  · cases ovs <;> rfl
  · cases ta <;> rfl
  · cases ovp <;> rfl
  · cases tas <;> rfl

theorem absoluteToLinePosGo_eq_none (pos : Int) (starts : List Nat)
    (h : ∀ s ∈ starts, pos < (s : Int)) :
    ∀ i, absoluteToLinePosGo pos starts i = none := by
  induction starts with
  | nil => intro i; rfl
  | cons s rest ih =>
    intro i
    have hs : pos < (s : Int) := h s (List.mem_cons_self s rest)
    have hrest : ∀ t ∈ rest, pos < (t : Int) := fun t ht =>
      h t (List.mem_cons_of_mem s ht)
    simp [absoluteToLinePosGo, ih hrest, Int.not_le.mpr hs]

theorem absoluteToLinePosGo_last (pos : Int) :
    ∀ (starts : List Nat) (i : Nat) (lastStart : Nat),
      starts.getLast? = some lastStart → (lastStart : Int) ≤ pos →
      absoluteToLinePosGo pos starts i =
        some (i + starts.length - 1, (pos - lastStart).toNat) := by
  intro starts
  induction starts with
  | nil => intro i ls h; simp at h
  | cons s rest ih =>
    intro i ls h hle
    cases rest with
    | nil =>
      have hs : s = ls := by simpa using h
      subst hs
      simp [absoluteToLinePosGo, hle]
    | cons s2 rest2 =>
      have h2 : (s2 :: rest2).getLast? = some ls := by
        simpa [List.getLast?_cons_cons] using h
      have hrec := ih (i + 1) ls h2 hle
      have hcons : absoluteToLinePosGo pos (s :: s2 :: rest2) i =
          match absoluteToLinePosGo pos (s2 :: rest2) (i + 1) with
          | some r => some r
          | none => if (s : Int) ≤ pos then some (i, (pos - s).toNat) else none := rfl
      rw [hcons, hrec]
      show some (i + 1 + (s2 :: rest2).length - 1, (pos - (ls : Int)).toNat) = _
      have harith : i + 1 + (s2 :: rest2).length - 1 =
          i + (s :: s2 :: rest2).length - 1 := by
        simp only [List.length_cons]
        omega
      rw [harith]

/-- C4 as stated fails on the code: with the line starts of
`"Hello\nWorld\nTest"`, whose last line `"Test"` has final local offset
`4`, the out-of-range absolute offset `100` resolves to local offset
`88` on the last line — the residual is not clamped to the line's final
offset (the repository's own unit test asserts exactly this value). -/
theorem absoluteToLinePos_no_end_clamp :
    absoluteToLinePos 100 (getLinePositions "Hello\nWorld\nTest".toList).2 = (2, 88) ∧
      ¬ (absoluteToLinePos 100 (getLinePositions "Hello\nWorld\nTest".toList).2).2 ≤
        ((getLinePositions "Hello\nWorld\nTest".toList).1.getD 2 []).length := by
  decide

/-- C4 amended: offset resolution is total and never throws; an offset
smaller than every line start (in particular any negative offset) resolves
to line `0` offset `0`; an offset at or beyond the last line's start
resolves to the last line with the residual local offset
`offset - lastLineStart`, which is not clamped to the line's final offset
(downstream consumers clamp per-line ranges to line bounds themselves). -/
theorem absoluteToLinePos_clamping (pos : Int) (starts : List Nat) :
    ((∀ s ∈ starts, pos < (s : Int)) → absoluteToLinePos pos starts = (0, 0)) ∧
      ∀ lastStart, starts.getLast? = some lastStart → (lastStart : Int) ≤ pos →
        absoluteToLinePos pos starts =
          (starts.length - 1, (pos - lastStart).toNat) := by
  constructor
  · intro h
    simp [absoluteToLinePos, absoluteToLinePosGo_eq_none pos starts h]
  · intro lastStart hlast hle
    simp [absoluteToLinePos, absoluteToLinePosGo_last pos starts 0 lastStart hlast hle]

/-- Witness for `absoluteToLinePos_clamping` at concrete inputs. -/
theorem absoluteToLinePos_clamping_witness :
    absoluteToLinePos (-3) [0, 6] = (0, 0) ∧
      absoluteToLinePos 100 [0, 6] = (1, 94) :=
  ⟨(absoluteToLinePos_clamping (-3) [0, 6]).1 (by decide),
   (absoluteToLinePos_clamping 100 [0, 6]).2 6 (by decide) (by decide)⟩

theorem syncLayout_eq {s : Sched} (h : SchedInv s) :
    syncLayout s = ⟨s.nextId + 1, [s.nextId], s.executed, some s.nextId⟩ := by
  obtain ⟨hp, hlt, hex, hdisj⟩ := h
  cases hsf : s.syncFrameId with
  | none =>
    have hpe : s.pending = [] := by simp [hp, hsf]
    simp [syncLayout, requestFrame, cancelFrame, hsf, hpe]
  | some j =>
    have hpe : s.pending = [j] := by simp [hp, hsf]
    simp [syncLayout, requestFrame, cancelFrame, hsf, hpe]

theorem schedInv_syncLayout {s : Sched} (h : SchedInv s) :
    SchedInv (syncLayout s) := by
  rw [syncLayout_eq h]
  obtain ⟨hp, hlt, hex, hdisj⟩ := h
  refine ⟨rfl, ?_, ?_, ?_⟩
  · intro i hi
    have hi2 : i = s.nextId := by simpa using hi
    simp only [hi2]
    exact Nat.lt_succ_self s.nextId
  · intro i hi
    exact Nat.lt_succ_of_lt (hex i hi)
  · intro i hi
    have hilt : i < s.nextId := hex i hi
    intro hmem
    have : i = s.nextId := by simpa using hmem
    omega

theorem cancelPendingSync_eq {s : Sched} (h : SchedInv s) :
    cancelPendingSync s = ⟨s.nextId, [], s.executed, none⟩ := by
  obtain ⟨n, p, e, f⟩ := s
  obtain ⟨hp, hlt, hex, hdisj⟩ := h
  cases f with
  | none =>
    have hpe : p = [] := by simpa using hp
    subst hpe
    rfl
  | some j =>
    have hpe : p = [j] := by simpa using hp
    subst hpe
    simp [cancelPendingSync, cancelFrame]

theorem schedInv_cancelPendingSync {s : Sched} (h : SchedInv s) :
    SchedInv (cancelPendingSync s) := by
  rw [cancelPendingSync_eq h]
  exact ⟨rfl, by intro i hi; simp at hi, h.2.2.1, by intro i hi; simp⟩

theorem schedInv_fireFrame {s : Sched} (i : Nat) (h : SchedInv s) :
    SchedInv (fireFrame i s) := by
  obtain ⟨hp, hlt, hex, hdisj⟩ := h
  unfold fireFrame
  by_cases hi : i ∈ s.pending
  · rw [if_pos hi]
    cases hsf : s.syncFrameId with
    | none =>
      exfalso
      rw [hp, hsf] at hi
      simp at hi
    | some j =>
      have hpe : s.pending = [j] := by simp [hp, hsf]
      have hij : i = j := by
        rw [hpe] at hi
        simpa using hi
      refine ⟨?_, ?_, ?_, ?_⟩
      · simp [hpe, hij]
      · intro k hk
        simp only at hk
        exact hlt k (List.mem_of_mem_erase hk)
      · intro k hk
        simp only at hk
        rcases List.mem_append.mp hk with hk | hk
        · exact hex k hk
        · have : k = i := by simpa using hk
          exact this ▸ hlt i hi
      · intro k hk
        simp [hpe, hij]
  · rw [if_neg hi]
    exact ⟨hp, hlt, hex, hdisj⟩

theorem schedInv_step {s s' : Sched} (h : SchedInv s) (hs : SchedStep s s') :
    SchedInv s' := by
  cases hs with
  | sync => exact schedInv_syncLayout h
  | cancel => exact schedInv_cancelPendingSync h
  | fire i => exact schedInv_fireFrame i h

theorem superseded_step {j : Nat} {s s' : Sched} (h : Superseded j s)
    (hs : SchedStep s s') : Superseded j s' := by
  obtain ⟨hpend, hexec, hlt⟩ := h
  cases hs with
  | sync =>
    refine ⟨?_, ?_, ?_⟩
    · unfold syncLayout requestFrame cancelFrame
      cases hsf : s.syncFrameId <;>
        · simp only
          intro hmem
          rcases List.mem_append.mp hmem with hmem | hmem
          · first
            | exact hpend (List.mem_of_mem_erase hmem)
            | exact hpend hmem
          · have : j = s.nextId := by simpa using hmem
            omega
    · unfold syncLayout requestFrame cancelFrame
      cases hsf : s.syncFrameId <;> simpa using hexec
    · unfold syncLayout requestFrame cancelFrame
      cases hsf : s.syncFrameId <;> · simp only; omega
  | cancel =>
    refine ⟨?_, ?_, ?_⟩
    · unfold cancelPendingSync cancelFrame
      cases hsf : s.syncFrameId with
      | none => exact hpend
      | some i =>
        simp only
        intro hmem
        exact hpend (List.mem_of_mem_erase hmem)
    · unfold cancelPendingSync cancelFrame
      cases hsf : s.syncFrameId <;> simpa using hexec
    · unfold cancelPendingSync cancelFrame
      cases hsf : s.syncFrameId <;> simpa using hlt
  | fire i =>
    unfold fireFrame
    by_cases hi : i ∈ s.pending
    · rw [if_pos hi]
      refine ⟨?_, ?_, hlt⟩
      · simp only
        intro hmem
        exact hpend (List.mem_of_mem_erase hmem)
      · simp only
        intro hmem
        rcases List.mem_append.mp hmem with hmem | hmem
        · exact hexec hmem
        · have : j = i := by simpa using hmem
          exact hpend (this ▸ hi)
    · rw [if_neg hi]
      exact ⟨hpend, hexec, hlt⟩

theorem superseded_reachable {j : Nat} {s s' : Sched} (h : Superseded j s)
    (hr : Relation.ReflTransGen SchedStep s s') : Superseded j s' := by
  induction hr with
  | refl => exact h
  | tail hab hbc ih => exact superseded_step ih hbc

theorem schedInv_reachable {s s' : Sched} (h : SchedInv s)
    (hr : Relation.ReflTransGen SchedStep s s') : SchedInv s' := by
  induction hr with
  | refl => exact h
  | tail hab hbc ih => exact schedInv_step ih hbc

/-- C6: from any state satisfying the scheduler invariant, at most one
pending sync token exists and this persists along every sequence of
scheduler events; `syncLayout` cancels any outstanding scheduled pass,
replacing it with exactly one new pass and remembering its token; the
superseded pass never fires in any future; and `cancelPendingSync`
discards the pending pass without executing anything. -/
theorem sync_token_uniqueness (s : Sched) (h : SchedInv s) :
    s.pending.length ≤ 1 ∧
      (∀ s', Relation.ReflTransGen SchedStep s s' → s'.pending.length ≤ 1) ∧
      (syncLayout s).pending = [s.nextId] ∧
      (syncLayout s).syncFrameId = some s.nextId ∧
      (∀ j, s.syncFrameId = some j → Superseded j (syncLayout s)) ∧
      (∀ j s', s.syncFrameId = some j →
        Relation.ReflTransGen SchedStep (syncLayout s) s' → j ∉ s'.executed) ∧
      (cancelPendingSync s).pending = [] ∧
      (cancelPendingSync s).executed = s.executed := by
  have hlen : ∀ t : Sched, SchedInv t → t.pending.length ≤ 1 := by
    intro t ht
    rw [ht.1]
    cases t.syncFrameId <;> simp
  have hsup : ∀ j, s.syncFrameId = some j → Superseded j (syncLayout s) := by
    intro j hj
    have hpe : s.pending = [j] := by simp [h.1, hj]
    have hjlt : j < s.nextId := h.2.1 j (by simp [hpe])
    rw [syncLayout_eq h]
    refine ⟨?_, ?_, ?_⟩
    · intro hmem
      have : j = s.nextId := by simpa using hmem
      omega
    · intro hmem
      exact h.2.2.2 j hmem (by simp [hpe])
    · exact Nat.lt_succ_of_lt hjlt
  refine ⟨hlen s h, ?_, ?_, ?_, hsup, ?_, ?_, ?_⟩
  · intro s' hr
    exact hlen s' (schedInv_reachable h hr)
  · rw [syncLayout_eq h]
  · rw [syncLayout_eq h]
  · intro j s' hj hr
    exact (superseded_reachable (hsup j hj) hr).2.1
  · rw [cancelPendingSync_eq h]
  · rw [cancelPendingSync_eq h]

/-- Witness for `sync_token_uniqueness` at the initial scheduler state. -/
theorem sync_token_uniqueness_witness :
    (syncLayout ⟨0, [], [], none⟩).pending = [0] ∧
      (cancelPendingSync ⟨0, [], [], none⟩).pending = [] :=
  ⟨(sync_token_uniqueness ⟨0, [], [], none⟩ ⟨rfl, by simp, by simp, by simp⟩).2.2.1,
   (sync_token_uniqueness ⟨0, [], [], none⟩
     ⟨rfl, by simp, by simp, by simp⟩).2.2.2.2.2.2.1⟩

/-- C7: at every style-mirroring pass, `scrollbarWidth` is the widget's
outer width minus its inner content width minus the left and right border
widths; whenever it is positive it is added to the overlay's
trailing-edge padding — the right edge for left-to-right text, the left
edge for right-to-left text — while the opposite edge keeps the widget's
own padding. -/
theorem scrollbar_compensation (cs : ComputedStyle) (m : BoxMetrics)
    (ov : OverlayStyle)
    (h : 0 < m.offsetWidth - m.clientWidth - cs.borderLeftWidth - cs.borderRightWidth) :
    (cs.direction = Dir.ltr →
      (syncHighlightStylesBody cs m ov).paddingRight = cs.paddingRight +
        (m.offsetWidth - m.clientWidth - cs.borderLeftWidth - cs.borderRightWidth) ∧
      (syncHighlightStylesBody cs m ov).paddingLeft = cs.paddingLeft) ∧
    (cs.direction = Dir.rtl →
      (syncHighlightStylesBody cs m ov).paddingLeft = cs.paddingLeft +
        (m.offsetWidth - m.clientWidth - cs.borderLeftWidth - cs.borderRightWidth) ∧
      (syncHighlightStylesBody cs m ov).paddingRight = cs.paddingRight) := by
  unfold syncHighlightStylesBody
  constructor
  · intro hdir
    rw [hdir]
    simp [h]
  · intro hdir
    rw [hdir]
    simp [h]

/-- Witness for `scrollbar_compensation` at concrete metrics with a
one-pixel scrollbar gutter. -/
theorem scrollbar_compensation_witness :
    (syncHighlightStylesBody ⟨Dir.ltr, 1, 1, 2, 3, "f"⟩ ⟨10, 7⟩
      ⟨"", 0, 0, false, 0, 0⟩).paddingRight = 3 + (10 - 7 - 1 - 1) :=
  ((scrollbar_compensation ⟨Dir.ltr, 1, 1, 2, 3, "f"⟩ ⟨10, 7⟩
    ⟨"", 0, 0, false, 0, 0⟩ (by norm_num)).1 rfl).1

/-- C10: `isColorValue` accepts every non-empty string of ASCII letters,
so a whole-line tag that is a single alphabetic word (such as the class
name "highlighted") is applied by `createLineElement` as a background
color on the line container, not as a class name; conversely a tag that is
applied as a class name necessarily contains a non-letter character and
matches none of the color-prefix alternatives. -/
theorem alphabetic_tag_is_color (tag : List Char) :
    (tag ≠ [] → (∀ c ∈ tag, isAsciiLetter c) →
      isColorValue tag = true ∧ createLineElement (some tag) = ⟨none, some tag⟩) ∧
    ∀ lh : Option (List Char), ∀ cn, (createLineElement lh).className = some cn →
      isColorValue cn = false ∧ (∃ c ∈ cn, ¬ isAsciiLetter c) ∧
        (∀ p ∈ colorKeywords, ¬ startsWithCI p cn) ∧ isVarColor cn = false := by
  constructor
  · intro hne hall
    have hemp : tag.isEmpty = false := by
      cases tag with
      | nil => exact absurd rfl hne
      | cons c cs => rfl
    have hcolor : isColorValue tag = true := by
      unfold isColorValue
      have h2 : tag.all isAsciiLetter = true := List.all_eq_true.mpr hall
      simp [hemp, h2]
    refine ⟨hcolor, ?_⟩
    unfold createLineElement
    simp [hemp, hcolor]
  · intro lh cn hcn
    cases lh with
    | none => simp [createLineElement] at hcn
    | some tag =>
      unfold createLineElement at hcn
      by_cases hemp : tag.isEmpty
      · simp [hemp] at hcn
      · by_cases hcol : isColorValue tag = true
        · simp [hemp, hcol] at hcn
        · have htag : tag = cn := by simpa [hemp, hcol] using hcn
          subst htag
          have hfalse : isColorValue tag = false := Bool.eq_false_iff.mpr hcol
          unfold isColorValue at hfalse
          simp only [Bool.or_eq_false_iff, Bool.and_eq_false_iff] at hfalse
          obtain ⟨⟨hkey, hvar⟩, hletters⟩ := hfalse
          refine ⟨Bool.eq_false_iff.mpr hcol, ?_, ?_, hvar⟩
          · rcases hletters with hletters | hletters
            · simp at hletters
              exact absurd (List.isEmpty_iff.mpr hletters) hemp
            · have := List.all_eq_false.mp hletters
              simpa using this
          · intro p hp
            have := List.any_eq_false.mp hkey p hp
            simpa using this

/-- Witness for `alphabetic_tag_is_color` at the concrete alphabetic tag
"highlighted". -/
theorem alphabetic_tag_is_color_witness :
    isColorValue "highlighted".toList = true ∧
      createLineElement (some "highlighted".toList) =
        ⟨none, some "highlighted".toList⟩ :=
  (alphabetic_tag_is_color "highlighted".toList).1 (by decide) (by decide)

end Dyelight
